import Mathlib

/-!
# DigitalNet (MCQMCIntegration): a shallow embedding

Source: `include/MCQMCIntegration/DigitalNet.h`, the explicit specialisation
`DigitalNet<uint64_t>`.

* `uint32_t` and `uint64_t` values are natural numbers; arithmetic that can
  leave the word is reduced `% 2^32` or `% 2^64` explicitly.
* The three heap buffers `base`, `point_base` and `point` are lists.  An access
  outside a buffer has no defined result in C++; here it yields `none`.
* A `double` coordinate is represented by the rational number it denotes; the
  conversion of a 64-bit accumulator to `double` rounds to 53 significant bits.
* The header defines `getBase`, `setBase`, `getPoint`, `getS`, `getM`,
  `getWAFOM`, `getTvalue` inline and declares the enumeration and the fields.
  The bodies of `Gray::clear`, `Gray::next`, `pointInitialize`, `nextPoint` and
  of the stream constructor are not part of the header; their definitions
  below follow the prose specification and say so in their doc comments.
  They read the matrix through `getBase`, in the header's layout.
* `std::mt19937_64 mt` is only used by `setSeed`, `scramble` and the RANDOM
  construction, none of which is embedded, so the field is left out.
-/

namespace MCQMCIntegration

/-! ## Data model -/

/-- Fields of the nested class `Gray` (header lines 65-75): three `uint32_t`. -/
structure Gray where
  count : Nat
  gray : Nat
  pre : Nat
deriving DecidableEq, Repr

/-- The enumeration `digital_net_id` (header lines 81-88). -/
inductive digital_net_id where
  | NX
  | SO
  | OLDSO
  | NXLW
  | SOLW
  | RANDOM
deriving DecidableEq, Repr

/-- Enumerator values exactly as written in the header:
`NX = 0, SO = 1, OLDSO = 2, NXLW = 3, SOLW = 4, RANDOM = -1`. -/
def digital_net_id.code : digital_net_id → Int
  | .NX => 0
  | .SO => 1
  | .OLDSO => 2
  | .NXLW => 3
  | .SOLW => 4
  | .RANDOM => -1

/-- The five ids that address the parameter table, in header order. -/
def tableIds : List digital_net_id :=
  [.NX, .SO, .OLDSO, .NXLW, .SOLW]

/-- The value of a point coordinate, a finite `double`, as the rational number it
denotes.  Coordinates are only produced by `scale`, which rounds to 53
significant bits. -/
abbrev Double : Type := ℚ

/-- Private fields of `DigitalNet<uint64_t>` (header lines 256-266).
`wafom` (a `double`) and `tvalue` (an `int64_t`) are optional metrics: the
header does not fix the value that stands for "absent", so absence is `none`.
`point` holds the values of the `double` coordinates. -/
structure DigitalNet where
  s : Nat
  m : Nat
  shift : Nat
  count : Nat
  wafom : Option ℚ
  tvalue : Option Int
  gray : Gray
  base : List Nat
  point_base : List Nat
  point : List Double
deriving DecidableEq

namespace DigitalNet

/-! ## Inline members of the header -/

/-- The subscript `i * s + j` of `getBase` and `setBase`.  `s` is a `uint32_t`,
so the `int` operands are converted and the expression is evaluated in
unsigned 32-bit arithmetic.  The arguments are the non-negative values of
`i` and `j`. -/
def baseIndex (s i j : Nat) : Nat :=
  (i * s + j) % 2 ^ 32

/-- Header lines 125-127: `return base[i * s + j];`.  `none` when the subscript is
outside the buffer.  The header documents `i` as the row and `j` as the column;
its disabled `print` helper (lines 269-287) runs the first index over `m` and
the second over `s`. -/
def getBase (dn : DigitalNet) (i j : Nat) : Option Nat :=
  dn.base[baseIndex dn.s i j]?

/-- Header lines 252-254: `base[i * s + j] = value;`.  `none` when the subscript
is outside the buffer. -/
def setBase (dn : DigitalNet) (i j value : Nat) : Option DigitalNet :=
  if baseIndex dn.s i j < dn.base.length then
    some { dn with base := dn.base.set (baseIndex dn.s i j) value }
  else
    none

/-- Header lines 134-136: `return point[i];`. -/
def getPoint (dn : DigitalNet) (i : Nat) : Option Double :=
  dn.point[i]?

/-- Header lines 150-152. -/
def getS (dn : DigitalNet) : Nat := dn.s

/-- Header lines 158-160. -/
def getM (dn : DigitalNet) : Nat := dn.m

/-- Header lines 192-194. -/
def getWAFOM (dn : DigitalNet) : Option ℚ := dn.wafom

/-- Header lines 200-202. -/
def getTvalue (dn : DigitalNet) : Option Int := dn.tvalue

end DigitalNet

/-! ## Gray counter -/

/-- Position of the lowest set bit among the first `width` bits of `x`
(`width` when there is none). -/
def lowestSetBit : Nat → Nat → Nat
  | 0, _ => 0
  | width + 1, x => if x % 2 = 1 then 0 else lowestSetBit width (x / 2) + 1

/-- Modelled from the spec: `Gray::clear` is declared in the header but its
body is not there.  "resets count to 0, gray/pre to 0". -/
def Gray.clear (_g : Gray) : Gray :=
  { count := 0, gray := 0, pre := 0 }

/-- Modelled from the spec: `Gray::next` is declared in the header but its body
is not there.  "increments count; recomputes gray as count XOR (count >> 1);
computes the bit position where gray and pre differ; sets pre = gray; returns
that bit position".  `count` is a `uint32_t`, so the increment wraps. -/
def Gray.next (g : Gray) : Nat × Gray :=
  let count := (g.count + 1) % 2 ^ 32
  let gray := count ^^^ (count >>> 1)
  (lowestSetBit 32 (gray ^^^ g.pre), { count := count, gray := gray, pre := gray })

/-- Modelled from the spec: `Gray::index` "returns the current gray value". -/
def Gray.index (g : Gray) : Nat := g.gray

/-! ## Point-state engine -/

namespace DigitalNet

/-- Number of significant bits of `x`, for `x` below `2^width`. -/
def bitLength : Nat → Nat → Nat
  | 0, _ => 0
  | width + 1, x => if x = 0 then 0 else bitLength width (x / 2) + 1

/-- The `double` nearest to the 64-bit integer `x`, as an integer: `x` rounded to
53 significant bits, ties to the even significand (the conversion of a
`uint64_t` to `double`). -/
def roundToDouble (x : Nat) : Nat :=
  let e := bitLength 64 x - 53
  let q := x / 2 ^ e
  let r := x % 2 ^ e
  if 2 ^ e < 2 * r ∨ (2 * r = 2 ^ e ∧ q % 2 = 1) then (q + 1) * 2 ^ e else q * 2 ^ e

/-- Modelled from the spec: the scaling is part of the bodies that are not in
the header.  "point: s doubles, derived from point_base by scaling with 2^-64":
the accumulator converted to `double` and divided by `2^64`, a division that is
exact in binary floating point. -/
def scale (x : Nat) : Double := (roundToDouble x : ℚ) / 2 ^ 64

/-- Modelled from the spec: `pointInitialize` is declared in the header but its
body is not there.  "resets gray counter, sets point_base[i] = shift for all
i, recomputes point[i] by scaling point_base[i] to [0,1), resets count to 0".
Both buffers hold `s` entries. -/
def pointInitialize (dn : DigitalNet) : DigitalNet :=
  { dn with
    gray := dn.gray.clear
    point_base := List.replicate dn.s dn.shift
    point := List.replicate dn.s (scale dn.shift)
    count := 0 }

/-- The loop body of `nextPoint` run for the dimensions `0 .. n-1`: the new
accumulators `point_base[i] XOR getBase (j, i)`, or `none` as soon as one of the
two reads is outside its buffer.  The matrix is read through the header's
accessor, whose first index runs over the `m` bit positions and whose second
index runs over the `s` dimensions. -/
def xorRow (dn : DigitalNet) (j : Nat) : Nat → Option (List Nat)
  | 0 => some []
  | n + 1 =>
    match xorRow dn j n, dn.point_base[n]?, dn.getBase j n with
    | some acc, some p, some b => some (acc ++ [p ^^^ b])
    | _, _, _ => none

/-- Modelled from the spec: `nextPoint` is declared in the header but its body
is not there.  "advances the Gray counter to obtain flip index j = gray.next();
for every dimension i in [0, s), XORs base[i*s + j]... more precisely column j
of the matrix into point_base[i], then rescales to produce the new point[i]".
The spec replaces its own subscript by "column j of the matrix": the entries
that belong to bit position `j`, one per dimension.  In the header's layout
these are `getBase (j, i)`, `i < s` (first index below `m`, second below `s`).
`count` is "the number of points produced since the last pointInitialize", a
`uint64_t`, "bounded by the period, nominally 2^m before repeating"; the
sequence "enumerates the full digital net exactly once per period (2^m points)
before repeating", so the call that follows the last point of a period starts
the period again. -/
def nextPoint (dn : DigitalNet) : Option DigitalNet :=
  if dn.count + 1 = 2 ^ dn.m then some dn.pointInitialize
  else
    match xorRow dn dn.gray.next.1 dn.s with
    | none => none
    | some pb =>
      some { dn with
        gray := dn.gray.next.2
        point_base := pb
        point := pb.map scale
        count := (dn.count + 1) % 2 ^ 64 }

/-- The state after `pointInitialize` followed by `k` calls of `nextPoint`. -/
def pointsAfter (dn : DigitalNet) : Nat → Option DigitalNet
  | 0 => some dn.pointInitialize
  | k + 1 => (pointsAfter dn k).bind nextPoint

end DigitalNet

/-- The state of a Gray counter after `clear` followed by `k` calls of `next`. -/
def Gray.afterCalls (g : Gray) : Nat → Gray
  | 0 => g.clear
  | k + 1 => (Gray.afterCalls g k).next.2

/-! ## Stream constructor -/

/-- A whitespace-separated token of the input stream: an integer literal or a
literal with a fractional part. -/
inductive Token where
  | int (z : Int)
  | real (q : ℚ)
deriving DecidableEq

/-- Failure categories of §7 that the stream constructor can report. -/
inductive NetError where
  | malformedInput
  | prematureEnd
deriving DecidableEq, Repr

/-- An unsigned integer of the given width read from one token. -/
def Token.readUInt (width : Nat) : Token → Option Nat
  | .int z => if 0 ≤ z ∧ z < 2 ^ width then some z.toNat else none
  | .real _ => none

/-- A floating-point value read from one token. -/
def Token.readReal : Token → Option ℚ
  | .int z => some z
  | .real q => some q

/-- A signed 64-bit integer read from one token. -/
def Token.readInt64 : Token → Option Int
  | .int z => if -(2 ^ 63) ≤ z ∧ z < 2 ^ 63 then some z else none
  | .real _ => none

/-- Reads `n` unsigned 64-bit matrix entries, in stream order, and returns them
with the rest of the stream. -/
def readEntries : Nat → List Token → Except NetError (List Nat × List Token)
  | 0, ts => .ok ([], ts)
  | _ + 1, [] => .error .prematureEnd
  | n + 1, t :: ts =>
    match t.readUInt 64 with
    | none => .error .malformedInput
    | some v =>
      match readEntries n ts with
      | .error e => .error e
      | .ok (vs, rest) => .ok (v :: vs, rest)

/-- Reads the optional trailer: a WAFOM value, then a t-value.  Missing tokens
leave the metric absent; tokens after the two are ignored. -/
def readMetrics : List Token → Except NetError (Option ℚ × Option Int)
  | [] => .ok (none, none)
  | w :: rest =>
    match w.readReal with
    | none => .error .malformedInput
    | some wafom =>
      match rest with
      | [] => .ok (some wafom, none)
      | t :: _ =>
        match t.readInt64 with
        | none => .error .malformedInput
        | some tvalue => .ok (some wafom, some tvalue)

/-- Modelled from the spec: the constructor `DigitalNet(std::istream&)` is
declared in the header but its body is not there.  "reads tokens: a fixed
literal 64, then s, then m, then s*m 64-bit integers in row-major order, then
optionally a WAFOM float and a t-value integer if present.  Fails if the
literal does not match, if any token fails to parse, or if stream ends
prematurely.  On success, allocates base(s*m), point_base(s), point(s), and
calls pointInitialize."  `shift` is "0 if unscrambled". -/
def DigitalNet.fromStream : List Token → Except NetError DigitalNet
  | t64 :: ts :: tm :: rest =>
    match t64.readUInt 32, ts.readUInt 32, tm.readUInt 32 with
    | some n, some s, some m =>
      if n ≠ 64 then .error .malformedInput
      else
        match readEntries (s * m) rest with
        | .error e => .error e
        | .ok (entries, trailer) =>
          match readMetrics trailer with
          | .error e => .error e
          | .ok (wafom, tvalue) =>
            .ok (DigitalNet.pointInitialize
              { s := s, m := m, shift := 0, count := 0
                wafom := wafom, tvalue := tvalue
                gray := { count := 0, gray := 0, pre := 0 }
                base := entries
                point_base := List.replicate s 0
                point := List.replicate s 0 })
    | _, _, _ => .error .malformedInput
  | _ => .error .prematureEnd

/-! ## Specification-side notions used in the statements -/

/-- The binary-reflected Gray code of `n`. -/
def grayCode (n : Nat) : Nat := n ^^^ (n >>> 1)

/-- A net with the given dimensions and matrix buffer, unscrambled and without
quality metrics; the other fields are at their cleared values. -/
def mkNet (s m : Nat) (base : List Nat) : DigitalNet :=
  { s := s, m := m, shift := 0, count := 0, wafom := none, tvalue := none
    gray := { count := 0, gray := 0, pre := 0 }
    base := base
    point_base := List.replicate s 0
    point := List.replicate s 0 }

namespace DigitalNet

/-- XOR of the entries of dimension `i` in the rows `j < n` selected by the bits
of `g`. -/
def rowSum (dn : DigitalNet) (i g : Nat) : Nat → Nat
  | 0 => 0
  | n + 1 =>
    if g.testBit n then rowSum dn i g n ^^^ (dn.getBase n i).getD 0
    else rowSum dn i g n

/-- No non-empty set of the `m` rows `(getBase (j, 0), .., getBase (j, s-1))` XORs
to the zero vector: the rows of the buffer, one per bit position, are linearly
independent over the binary field. -/
def independentRows (dn : DigitalNet) : Prop :=
  ∀ g, g < 2 ^ dn.m → g ≠ 0 → ∃ i, i < dn.s ∧ rowSum dn i g dn.m ≠ 0

/-- Independence of the rows is decided by running through the masks. -/
instance independentRows.decidable (dn : DigitalNet) :
    Decidable (independentRows dn) := by
  unfold independentRows
  infer_instance

/-- The state of `mkNet 2 2 [1, 2, 4, 8]` after `pointInitialize` and one call of
`nextPoint`. -/
def stateAfterOne : DigitalNet :=
  { s := 2, m := 2, shift := 0, count := 1, wafom := none, tvalue := none
    gray := { count := 1, gray := 1, pre := 1 }
    base := [1, 2, 4, 8]
    point_base := [1, 2]
    point := [scale 1, scale 2] }

/-- A three-dimensional net with shift 5, caught in the middle of an
enumeration. -/
def shiftedNet : DigitalNet :=
  { s := 3, m := 2, shift := 5, count := 2, wafom := none, tvalue := none
    gray := { count := 2, gray := 3, pre := 3 }
    base := [1, 2, 3, 4, 5, 6]
    point_base := [4, 6, 0]
    point := [scale 4, scale 6, scale 0] }

end DigitalNet

/-! ## Construction ids -/

/-- C7: the construction ids carry the codes NX = 0, SO = 1, OLDSO = 2, NXLW = 3,
SOLW = 4; the codes of all six ids are pairwise distinct, and the code of RANDOM
is none of the five table codes. -/
theorem digital_net_id_codes :
    digital_net_id.NX.code = 0 ∧ digital_net_id.SO.code = 1 ∧
    digital_net_id.OLDSO.code = 2 ∧ digital_net_id.NXLW.code = 3 ∧
    digital_net_id.SOLW.code = 4 ∧
    Function.Injective digital_net_id.code ∧
    digital_net_id.RANDOM.code ∉ tableIds.map digital_net_id.code := by
  refine ⟨rfl, rfl, rfl, rfl, rfl, ?_, by decide⟩
  intro a b h
  cases a <;> cases b <;> first | rfl | (exact absurd h (by decide))

/-! ## Matrix buffer addressing -/

namespace DigitalNet

/-- Without wrap-around the subscript is `i * s + j`. -/
theorem baseIndex_eq {s m i j : Nat} (hwrap : s * m ≤ 2 ^ 32) (hi : i < m) (hj : j < s) :
    baseIndex s i j = i * s + j ∧ i * s + j < s * m := by
  have h1 : i * s + j < s * m := by
    have h2 : (i + 1) * s ≤ m * s := Nat.mul_le_mul_right s hi
    have h3 : m * s = s * m := Nat.mul_comm m s
    have h4 : (i + 1) * s = i * s + s := by ring
    omega
  refine ⟨?_, h1⟩
  unfold baseIndex
  exact Nat.mod_eq_of_lt (by omega)

/-- The row and the column are recovered from `i * s + j` when `j < s`. -/
theorem subscript_injective {s i j i' j' : Nat} (hj : j < s) (hj' : j' < s)
    (h : i * s + j = i' * s + j') : i = i' ∧ j = j' := by
  have hs : 0 < s := by omega
  have hd : (i * s + j) / s = (i' * s + j') / s := by rw [h]
  have hm : (i * s + j) % s = (i' * s + j') % s := by rw [h]
  have e1 : (i * s + j) / s = i := by
    rw [Nat.add_comm, Nat.add_mul_div_right _ _ hs, Nat.div_eq_of_lt hj, Nat.zero_add]
  have e2 : (i' * s + j') / s = i' := by
    rw [Nat.add_comm, Nat.add_mul_div_right _ _ hs, Nat.div_eq_of_lt hj', Nat.zero_add]
  have e3 : (i * s + j) % s = j := by
    rw [Nat.add_comm, Nat.add_mul_mod_self_right, Nat.mod_eq_of_lt hj]
  have e4 : (i' * s + j') % s = j' := by
    rw [Nat.add_comm, Nat.add_mul_mod_self_right, Nat.mod_eq_of_lt hj']
  exact ⟨by omega, by omega⟩

/-- C2 (as stated, refuted): with `s = 2`, `m = 1` the pair `i = 1`, `j = 0` is
inside the stated ranges, yet the subscript `1 * 2 + 0 = 2` is not below
`s * m = 2`; on a two-entry buffer the read and the write both fall outside. -/
theorem subscript_escapes_buffer :
    (1 < 2 ∧ 0 < 1) ∧ ¬ baseIndex 2 1 0 < 2 * 1 ∧
    (mkNet 2 1 [7, 9]).getBase 1 0 = none ∧
    (mkNet 2 1 [7, 9]).setBase 1 0 5 = none := by
  decide

/-- C2 (amended): for a buffer of `s * m` entries and every `i < m`, `j < s`, the
subscript used by `getBase (i, j)` and `setBase (i, j, v)` is below `s * m`, so
the read returns a value and the write succeeds. -/
theorem subscript_within_buffer (dn : DigitalNet) (i j v : Nat)
    (hlen : dn.base.length = dn.s * dn.m) (hi : i < dn.m) (hj : j < dn.s) :
    baseIndex dn.s i j < dn.s * dn.m ∧
    (∃ x, dn.getBase i j = some x) ∧ (∃ dn', dn.setBase i j v = some dn') := by
  have hlt : baseIndex dn.s i j < dn.s * dn.m := by
    have h2 : (i + 1) * dn.s ≤ dn.m * dn.s := Nat.mul_le_mul_right dn.s hi
    have h3 : dn.m * dn.s = dn.s * dn.m := Nat.mul_comm _ _
    have h4 : (i + 1) * dn.s = i * dn.s + dn.s := by ring
    have h5 : baseIndex dn.s i j ≤ i * dn.s + j := Nat.mod_le _ _
    omega
  have hlt' : baseIndex dn.s i j < dn.base.length := by omega
  refine ⟨hlt, ⟨dn.base[baseIndex dn.s i j], ?_⟩, ?_⟩
  · unfold getBase
    exact List.getElem?_eq_getElem hlt'
  · unfold setBase
    rw [if_pos hlt']
    exact ⟨_, rfl⟩

/-- Witness: two rows of three entries, last row and last column. -/
theorem subscript_within_buffer_witness :
    (mkNet 3 2 [1, 2, 3, 4, 5, 6]).base.length = 3 * 2 ∧ 1 < 2 ∧ 2 < 3 ∧
    baseIndex 3 1 2 < 3 * 2 ∧
    (∃ x, (mkNet 3 2 [1, 2, 3, 4, 5, 6]).getBase 1 2 = some x) ∧
    (∃ dn', (mkNet 3 2 [1, 2, 3, 4, 5, 6]).setBase 1 2 9 = some dn') :=
  ⟨by decide, by decide, by decide,
    subscript_within_buffer (mkNet 3 2 [1, 2, 3, 4, 5, 6]) 1 2 9 (by decide) (by decide)
      (by decide)⟩

/-- C1 (as stated, refuted): with `s = 2`, `m = 3` and the tokens `10 .. 15` stored
in reading order, `getBase (1, 0)` is token number `1 * 2 + 0 = 2` (value 12),
not token number `1 * 3 + 0 = 3` (value 13). -/
theorem getBase_not_stride_m :
    (1 < 2 ∧ 0 < 3) ∧
    (mkNet 2 3 [10, 11, 12, 13, 14, 15]).getBase 1 0 = some 12 ∧
    [10, 11, 12, 13, 14, 15][1 * 3 + 0]? = some 13 ∧
    (mkNet 2 3 [10, 11, 12, 13, 14, 15]).getBase 1 0 ≠
      [10, 11, 12, 13, 14, 15][1 * 3 + 0]? := by
  decide

/-- C1 (amended): when the `s * m ≤ 2^32` tokens are stored in the buffer in
reading order, `getBase (i, j)` with `i < m` and `j < s` returns token number
`i * s + j`: the row stride is `s`. -/
theorem getBase_eq_token (dn : DigitalNet) (tokens : List Nat) (i j : Nat)
    (hbase : dn.base = tokens) (hlen : tokens.length = dn.s * dn.m)
    (hwrap : dn.s * dn.m ≤ 2 ^ 32) (hi : i < dn.m) (hj : j < dn.s) :
    ∃ v, tokens[i * dn.s + j]? = some v ∧ dn.getBase i j = some v := by
  obtain ⟨hidx, hlt⟩ := baseIndex_eq hwrap hi hj
  have hlt' : i * dn.s + j < tokens.length := by omega
  refine ⟨tokens[i * dn.s + j], List.getElem?_eq_getElem hlt', ?_⟩
  unfold getBase
  rw [hidx, hbase]
  exact List.getElem?_eq_getElem hlt'

/-- Witness: three rows of two entries, row 2, column 1. -/
theorem getBase_eq_token_witness :
    [10, 11, 12, 13, 14, 15].length = 2 * 3 ∧ 2 * 3 ≤ 2 ^ 32 ∧ 2 < 3 ∧ 1 < 2 ∧
    ∃ v, [10, 11, 12, 13, 14, 15][2 * 2 + 1]? = some v ∧
      (mkNet 2 3 [10, 11, 12, 13, 14, 15]).getBase 2 1 = some v :=
  ⟨by decide, by decide, by decide, by decide,
    getBase_eq_token (mkNet 2 3 [10, 11, 12, 13, 14, 15]) [10, 11, 12, 13, 14, 15] 2 1
      rfl (by decide) (by decide) (by decide) (by decide)⟩

/-- C9 (as stated, refuted): with `s = 2`, `m = 3` the distinct pairs `(0, 2)` and
`(1, 0)` are inside the stated ranges and address the same cell, number 2:
after `setBase (0, 2, 7)` the value of `getBase (1, 0)` has changed from 0 to 7. -/
theorem setBase_aliases :
    ((0 < 2 ∧ 2 < 3) ∧ (1 < 2 ∧ 0 < 3) ∧ ((0, 2) : Nat × Nat) ≠ (1, 0)) ∧
    (mkNet 2 3 [0, 0, 0, 0, 0, 0]).getBase 1 0 = some 0 ∧
    ((mkNet 2 3 [0, 0, 0, 0, 0, 0]).setBase 0 2 7).bind (fun dn => dn.getBase 1 0) =
      some 7 := by
  decide

/-- C9 (amended): for a buffer of `s * m ≤ 2^32` entries and two distinct pairs
`(i, j)`, `(i', j')` with `i, i' < m` and `j, j' < s`, `setBase (i, j, v)` succeeds
and leaves `getBase (i', j')` unchanged. -/
theorem setBase_frame (dn : DigitalNet) (i j i' j' v : Nat)
    (hlen : dn.base.length = dn.s * dn.m) (hwrap : dn.s * dn.m ≤ 2 ^ 32)
    (hi : i < dn.m) (hj : j < dn.s) (hi' : i' < dn.m) (hj' : j' < dn.s)
    (hne : (i, j) ≠ (i', j')) :
    ∃ dn', dn.setBase i j v = some dn' ∧ dn'.getBase i' j' = dn.getBase i' j' := by
  obtain ⟨hidx, hlt⟩ := baseIndex_eq hwrap hi hj
  obtain ⟨hidx', _⟩ := baseIndex_eq hwrap hi' hj'
  have hlt' : baseIndex dn.s i j < dn.base.length := by omega
  have hdiff : baseIndex dn.s i j ≠ baseIndex dn.s i' j' := by
    intro h
    rw [hidx, hidx'] at h
    obtain ⟨e1, e2⟩ := subscript_injective hj hj' h
    exact hne (by rw [e1, e2])
  refine ⟨{ dn with base := dn.base.set (baseIndex dn.s i j) v }, ?_, ?_⟩
  · unfold setBase
    rw [if_pos hlt']
  · unfold getBase
    exact List.getElem?_set_ne hdiff

/-- Witness: writing cell `(0, 1)` and reading cell `(1, 0)`. -/
theorem setBase_frame_witness :
    (mkNet 2 3 [0, 0, 0, 0, 0, 0]).base.length = 2 * 3 ∧ 2 * 3 ≤ 2 ^ 32 ∧
    (0 < 3 ∧ 1 < 2) ∧ (1 < 3 ∧ 0 < 2) ∧ ((0, 1) : Nat × Nat) ≠ (1, 0) ∧
    ∃ dn', (mkNet 2 3 [0, 0, 0, 0, 0, 0]).setBase 0 1 7 = some dn' ∧
      dn'.getBase 1 0 = (mkNet 2 3 [0, 0, 0, 0, 0, 0]).getBase 1 0 :=
  ⟨by decide, by decide, by decide, by decide, by decide,
    setBase_frame (mkNet 2 3 [0, 0, 0, 0, 0, 0]) 0 1 1 0 7 (by decide) (by decide)
      (by decide) (by decide) (by decide) (by decide) (by decide)⟩

end DigitalNet

/-! ## Initialisation and construction -/

namespace DigitalNet

/-- A number below `2^n` has at most `n` significant bits. -/
theorem bitLength_le (w : Nat) : ∀ n x, x < 2 ^ n → bitLength w x ≤ n := by
  induction w with
  | zero => intro n x _; simp [bitLength]
  | succ w ih =>
    intro n x hx
    unfold bitLength
    by_cases h0 : x = 0
    · simp [h0]
    · rw [if_neg h0]
      cases n with
      | zero => simp at hx; omega
      | succ n =>
        have hp : 2 ^ (n + 1) = 2 * 2 ^ n := by ring
        have := ih n (x / 2) (by omega)
        omega

/-- The bit length never exceeds the width it is computed for. -/
theorem bitLength_le_width (w : Nat) : ∀ x, bitLength w x ≤ w := by
  induction w with
  | zero => intro x; simp [bitLength]
  | succ w ih =>
    intro x
    unfold bitLength
    by_cases h0 : x = 0
    · simp [h0]
    · rw [if_neg h0]
      have := ih (x / 2)
      omega

/-- Integers of at most 53 bits are doubles: the conversion is exact. -/
theorem roundToDouble_of_lt {x : Nat} (hx : x < 2 ^ 53) : roundToDouble x = x := by
  have hb := bitLength_le 64 53 x hx
  have he : bitLength 64 x - 53 = 0 := by omega
  have h1 : x % 1 = 0 := Nat.mod_one x
  simp [roundToDouble, he, h1]

/-- The conversion moves a 64-bit integer by at most half a unit in the last
place, which is at most `2^10`. -/
theorem roundToDouble_error (x : Nat) :
    ∃ d, d ≤ 2 ^ 10 ∧ (roundToDouble x = x + d ∨ roundToDouble x + d = x) := by
  have hb := bitLength_le_width 64 x
  have hdm := Nat.div_add_mod x (2 ^ (bitLength 64 x - 53))
  have hr := Nat.mod_lt x (Nat.pos_pow_of_pos (bitLength 64 x - 53) (by decide : 0 < 2))
  have hle : 2 ^ (bitLength 64 x - 53) ≤ 2 ^ 11 :=
    Nat.pow_le_pow_right (by decide) (by omega)
  have h11 : (2 : Nat) ^ 11 = 2048 := by norm_num
  have h10 : (2 : Nat) ^ 10 = 1024 := by norm_num
  rw [h11] at hle
  rw [h10]
  unfold roundToDouble
  simp only []
  generalize 2 ^ (bitLength 64 x - 53) = P at *
  generalize x / P = q at *
  generalize x % P = r at *
  have hqP : (q + 1) * P = P * q + P := by ring
  have hqP' : q * P = P * q := Nat.mul_comm q P
  split_ifs with hc
  · refine ⟨P - r, by omega, Or.inl ?_⟩
    rw [hqP]; omega
  · refine ⟨r, ?_, Or.inr ?_⟩
    · by_contra hcon
      apply hc
      left; omega
    · rw [hqP']; omega

/-- The scaled double is within `2^-54` of the exact quotient. -/
theorem scale_error (x : Nat) : |scale x - (x : ℚ) / 2 ^ 64| ≤ 1 / 2 ^ 54 := by
  obtain ⟨d, hd, h⟩ := roundToDouble_error x
  have hdq : (d : ℚ) ≤ 2 ^ 10 := by exact_mod_cast hd
  have hd0 : (0 : ℚ) ≤ d := Nat.cast_nonneg d
  unfold scale
  rcases h with h | h
  · have e : ((roundToDouble x : ℕ) : ℚ) = (x : ℚ) + d := by rw [h]; push_cast; ring
    have e2 : ((roundToDouble x : ℕ) : ℚ) / 2 ^ 64 - (x : ℚ) / 2 ^ 64 = d / 2 ^ 64 := by
      rw [e]; ring
    rw [e2, abs_of_nonneg (by positivity)]
    rw [div_le_div_iff₀ (by positivity) (by positivity)]
    have : (2 : ℚ) ^ 64 = 2 ^ 10 * 2 ^ 54 := by norm_num
    nlinarith [this]
  · have e : (x : ℚ) = ((roundToDouble x : ℕ) : ℚ) + d := by exact_mod_cast h.symm
    have e2 : ((roundToDouble x : ℕ) : ℚ) / 2 ^ 64 - (x : ℚ) / 2 ^ 64 = -(d / 2 ^ 64) := by
      rw [e]; ring
    rw [e2, abs_neg, abs_of_nonneg (by positivity)]
    rw [div_le_div_iff₀ (by positivity) (by positivity)]
    have : (2 : ℚ) ^ 64 = 2 ^ 10 * 2 ^ 54 := by norm_num
    nlinarith [this]

/-- C5: after `pointInitialize` the Gray counter is cleared, `count` is 0, every
accumulator `point_base[i]`, `i < s`, equals `shift`, and every coordinate
`point[i]` is the double `shift / 2^64` (`scale shift`: within `2^-54` of the
exact quotient, equal to it when `shift < 2^53`, and 0 when the shift is 0);
`base`, `s`, `m` and `shift` are unchanged. -/
theorem pointInitialize_state (dn : DigitalNet) (i : Nat) (hi : i < dn.s) :
    dn.pointInitialize.gray = { count := 0, gray := 0, pre := 0 } ∧
    dn.pointInitialize.count = 0 ∧
    dn.pointInitialize.point_base[i]? = some dn.shift ∧
    dn.pointInitialize.getPoint i = some (scale dn.shift) ∧
    |scale dn.shift - (dn.shift : ℚ) / 2 ^ 64| ≤ 1 / 2 ^ 54 ∧
    (dn.shift < 2 ^ 53 → dn.pointInitialize.getPoint i = some ((dn.shift : ℚ) / 2 ^ 64)) ∧
    ({ dn with shift := 0 } : DigitalNet).pointInitialize.getPoint i = some 0 ∧
    dn.pointInitialize.base = dn.base ∧ dn.pointInitialize.s = dn.s ∧
    dn.pointInitialize.m = dn.m ∧ dn.pointInitialize.shift = dn.shift := by
  have hp : dn.pointInitialize.getPoint i = some (scale dn.shift) := by
    simp [pointInitialize, getPoint, List.getElem?_replicate, hi]
  refine ⟨rfl, rfl, ?_, hp, scale_error dn.shift, ?_, ?_, rfl, rfl, rfl, rfl⟩
  · simp [pointInitialize, List.getElem?_replicate, hi]
  · intro h53
    rw [hp, scale, roundToDouble_of_lt h53]
  · have h0 : roundToDouble 0 = 0 := roundToDouble_of_lt (by decide)
    simp [pointInitialize, getPoint, scale, List.getElem?_replicate, hi, h0]

/-- Witness: the last dimension of `shiftedNet`. -/
theorem pointInitialize_state_witness :
    2 < shiftedNet.s ∧
    shiftedNet.pointInitialize.gray = { count := 0, gray := 0, pre := 0 } ∧
    shiftedNet.pointInitialize.count = 0 ∧
    shiftedNet.pointInitialize.point_base[2]? = some shiftedNet.shift ∧
    shiftedNet.pointInitialize.getPoint 2 = some (scale shiftedNet.shift) ∧
    |scale shiftedNet.shift - (shiftedNet.shift : ℚ) / 2 ^ 64| ≤ 1 / 2 ^ 54 ∧
    (shiftedNet.shift < 2 ^ 53 →
      shiftedNet.pointInitialize.getPoint 2 = some ((shiftedNet.shift : ℚ) / 2 ^ 64)) ∧
    ({ shiftedNet with shift := 0 } : DigitalNet).pointInitialize.getPoint 2 = some 0 ∧
    shiftedNet.pointInitialize.base = shiftedNet.base ∧
    shiftedNet.pointInitialize.s = shiftedNet.s ∧
    shiftedNet.pointInitialize.m = shiftedNet.m ∧
    shiftedNet.pointInitialize.shift = shiftedNet.shift :=
  ⟨by decide, pointInitialize_state shiftedNet 2 (by decide)⟩

/-- C6: the token stream `64 1 2 3 5` is accepted and gives `getS = 1`,
`getM = 2`, `getBase (0, 0) = 3`, `getBase (0, 1) = 5`, with the WAFOM value and
the t-value absent. -/
theorem fromStream_example :
    ∃ dn, fromStream [.int 64, .int 1, .int 2, .int 3, .int 5] = .ok dn ∧
      dn.getS = 1 ∧ dn.getM = 2 ∧ dn.getBase 0 0 = some 3 ∧ dn.getBase 0 1 = some 5 ∧
      dn.getWAFOM = none ∧ dn.getTvalue = none := by
  refine ⟨_, rfl, ?_, ?_, ?_, ?_, ?_, ?_⟩ <;> decide

end DigitalNet

/-! ## Gray counter -/

/-- An odd number and its predecessor differ in bit 0 only. -/
theorem xor_pred_of_odd {n : Nat} (h : n % 2 = 1) : n ^^^ (n - 1) = 1 := by
  apply Nat.eq_of_testBit_eq
  intro i
  rw [Nat.testBit_xor]
  cases i with
  | zero =>
    have h1 : (n - 1) % 2 = 0 := by omega
    simp [Nat.testBit_zero, h, h1]
  | succ i =>
    have h1 : (n - 1) / 2 = n / 2 := by omega
    simp [Nat.testBit_succ, h1]

/-- A positive number and its predecessor differ exactly in the bits up to and
including the lowest set bit. -/
theorem xor_pred (w : Nat) : ∀ n, 0 < n → n < 2 ^ w →
    n ^^^ (n - 1) = 2 ^ (lowestSetBit w n + 1) - 1 := by
  induction w with
  | zero => intro n h0 h1; simp at h1; omega
  | succ w ih =>
    intro n h0 h1
    unfold lowestSetBit
    by_cases hodd : n % 2 = 1
    · rw [if_pos hodd, xor_pred_of_odd hodd]; rfl
    · rw [if_neg hodd]
      have hb0 : 0 < n / 2 := by omega
      have hb1 : n / 2 < 2 ^ w := by
        have : 2 ^ (w + 1) = 2 * 2 ^ w := by ring
        omega
      have hih := ih (n / 2) hb0 hb1
      apply Nat.eq_of_testBit_eq
      intro i
      rw [Nat.testBit_xor, Nat.testBit_two_pow_sub_one]
      cases i with
      | zero =>
        have h2 : n % 2 = 0 := by omega
        have h3 : (n - 1) % 2 = 1 := by omega
        simp [Nat.testBit_zero, h2, h3]
      | succ i =>
        have h2 : (n - 1) / 2 = n / 2 - 1 := by omega
        rw [Nat.testBit_succ, Nat.testBit_succ, h2, ← Nat.testBit_xor, hih,
          Nat.testBit_two_pow_sub_one]
        simp

/-- Consecutive Gray codes differ in one bit: the lowest set bit of the larger
argument. -/
theorem grayCode_xor_pred (w n : Nat) (h0 : 0 < n) (h1 : n < 2 ^ w) :
    grayCode n ^^^ grayCode (n - 1) = 2 ^ lowestSetBit w n := by
  have hD : ∀ i, (n.testBit i ^^ (n - 1).testBit i) = decide (i < lowestSetBit w n + 1) := by
    intro i
    rw [← Nat.testBit_xor, xor_pred w n h0 h1, Nat.testBit_two_pow_sub_one]
  apply Nat.eq_of_testBit_eq
  intro i
  have e1 := hD i
  have e2 := hD (1 + i)
  simp only [grayCode, Nat.testBit_xor, Nat.testBit_shiftRight, Nat.testBit_two_pow]
  have hswap : ∀ a b c d : Bool, ((a ^^ b) ^^ (c ^^ d)) = ((a ^^ c) ^^ (b ^^ d)) := by decide
  rw [hswap, e1, e2]
  by_cases c1 : i < lowestSetBit w n + 1 <;> by_cases c2 : 1 + i < lowestSetBit w n + 1 <;>
    by_cases c3 : lowestSetBit w n = i <;> simp [c1, c2, c3] <;> omega

/-- The lowest set bit of a power of two inside the width is its exponent. -/
theorem lowestSetBit_two_pow (w : Nat) : ∀ t, t < w → lowestSetBit w (2 ^ t) = t := by
  induction w with
  | zero => intro t h; omega
  | succ w ih =>
    intro t h
    unfold lowestSetBit
    cases t with
    | zero => simp
    | succ t =>
      have h1 : 2 ^ (t + 1) % 2 = 0 := by rw [Nat.pow_succ]; omega
      have h2 : 2 ^ (t + 1) / 2 = 2 ^ t := by rw [Nat.pow_succ]; omega
      rw [if_neg (by omega), h2, ih t (by omega)]

/-- The lowest set bit of a positive `w`-bit number lies inside the width and
its weight does not exceed the number. -/
theorem lowestSetBit_bound (w : Nat) : ∀ n, 0 < n → n < 2 ^ w →
    lowestSetBit w n < w ∧ 2 ^ lowestSetBit w n ≤ n := by
  induction w with
  | zero => intro n h0 h1; simp at h1; omega
  | succ w ih =>
    intro n h0 h1
    unfold lowestSetBit
    by_cases hodd : n % 2 = 1
    · rw [if_pos hodd]; exact ⟨by omega, by simpa using h0⟩
    · rw [if_neg hodd]
      have hp : 2 ^ (w + 1) = 2 * 2 ^ w := by ring
      obtain ⟨a, b⟩ := ih (n / 2) (by omega) (by omega)
      refine ⟨by omega, ?_⟩
      rw [Nat.pow_succ]
      omega

/-- The Gray counter after `clear` and `k` calls of `next`. -/
theorem Gray.afterCalls_eq (g : Gray) (k : Nat) :
    g.afterCalls k =
      { count := k % 2 ^ 32, gray := grayCode (k % 2 ^ 32), pre := grayCode (k % 2 ^ 32) } := by
  induction k with
  | zero => rfl
  | succ k ih =>
    have h : (k % 2 ^ 32 + 1) % 2 ^ 32 = (k + 1) % 2 ^ 32 := by omega
    simp only [Gray.afterCalls, Gray.next, ih, h, grayCode]

/-- The flip index returned by call number `k + 1`, while the 32-bit counter has
not wrapped: the lowest set bit of `k + 1`. -/
theorem Gray.next_afterCalls (g : Gray) (k : Nat) (hk : k + 1 < 2 ^ 32) :
    (g.afterCalls k).next.1 = lowestSetBit 32 (k + 1) ∧
    (g.afterCalls k).next.2.gray ^^^ (g.afterCalls k).gray = 2 ^ lowestSetBit 32 (k + 1) := by
  have h1 : k % 2 ^ 32 = k := Nat.mod_eq_of_lt (by omega)
  have h2 : (k + 1) % 2 ^ 32 = k + 1 := Nat.mod_eq_of_lt hk
  have h3 := grayCode_xor_pred 32 (k + 1) (by omega) hk
  simp only [Nat.add_sub_cancel] at h3
  have h4 := (lowestSetBit_bound 32 (k + 1) (by omega) hk).1
  rw [Gray.afterCalls_eq]
  simp only [Gray.next, h1, h2]
  refine ⟨?_, h3⟩
  show lowestSetBit 32 (grayCode (k + 1) ^^^ grayCode k) = _
  rw [h3, lowestSetBit_two_pow 32 _ h4]

/-- C8: in the state reached by `k` calls of `next` after `clear`, with
`k + 1 < 2^32`, the next call sets `gray` to `(k+1) XOR ((k+1) >> 1)`; the new
and the previous `gray` differ in exactly one bit; the returned value is the
position of that bit; and `pre` equals `gray` afterwards. -/
theorem gray_next_single_flip (g : Gray) (k : Nat) (hk : k + 1 < 2 ^ 32) :
    (g.afterCalls k).next.2.gray = (k + 1) ^^^ ((k + 1) >>> 1) ∧
    (∀ b, (g.afterCalls k).next.2.gray.testBit b ≠ (g.afterCalls k).gray.testBit b ↔
      b = (g.afterCalls k).next.1) ∧
    (g.afterCalls k).next.2.pre = (g.afterCalls k).next.2.gray := by
  obtain ⟨hidx, hxor⟩ := Gray.next_afterCalls g k hk
  refine ⟨?_, ?_, rfl⟩
  · have h2 : (k + 1) % 2 ^ 32 = k + 1 := Nat.mod_eq_of_lt hk
    have h1 : k % 2 ^ 32 = k := Nat.mod_eq_of_lt (by omega)
    rw [Gray.afterCalls_eq]
    simp only [Gray.next, h1, h2]
  · intro b
    have hb := congrArg (fun x => x.testBit b) hxor
    simp only [Nat.testBit_xor, Nat.testBit_two_pow] at hb
    rw [hidx]
    generalize (g.afterCalls k).next.2.gray.testBit b = x at hb
    generalize (g.afterCalls k).gray.testBit b = y at hb
    by_cases c : lowestSetBit 32 (k + 1) = b
    · cases x <;> cases y <;> simp_all
    · have c2 : ¬ b = lowestSetBit 32 (k + 1) := fun h => c h.symm
      cases x <;> cases y <;> simp_all

/-- Witness: the sixth call. -/
theorem gray_next_single_flip_witness :
    5 + 1 < 2 ^ 32 ∧
    (({ count := 9, gray := 9, pre := 9 } : Gray).afterCalls 5).next.2.gray =
      (5 + 1) ^^^ ((5 + 1) >>> 1) ∧
    (∀ b, (({ count := 9, gray := 9, pre := 9 } : Gray).afterCalls 5).next.2.gray.testBit b ≠
        (({ count := 9, gray := 9, pre := 9 } : Gray).afterCalls 5).gray.testBit b ↔
      b = (({ count := 9, gray := 9, pre := 9 } : Gray).afterCalls 5).next.1) ∧
    (({ count := 9, gray := 9, pre := 9 } : Gray).afterCalls 5).next.2.pre =
      (({ count := 9, gray := 9, pre := 9 } : Gray).afterCalls 5).next.2.gray :=
  ⟨by decide, gray_next_single_flip _ 5 (by decide)⟩

/-- The flip index of call number `k + 1` is a row number when `k + 1 < 2^m`,
also when the 32-bit counter wraps. -/
theorem flipIndex_lt (g : Gray) (k m : Nat) (hk : k + 1 < 2 ^ m) :
    (g.afterCalls k).next.1 < m := by
  by_cases hw : k % 2 ^ 32 + 1 < 2 ^ 32
  · have e := Gray.afterCalls_eq g (k % 2 ^ 32)
    have e' := Gray.afterCalls_eq g k
    rw [Nat.mod_mod] at e
    rw [e', ← e, (Gray.next_afterCalls g _ hw).1]
    obtain ⟨h1, h2⟩ := lowestSetBit_bound 32 (k % 2 ^ 32 + 1) (by omega) hw
    by_cases hm : 32 ≤ m
    · omega
    · have hk32 : k + 1 < 2 ^ 32 :=
        lt_trans hk (Nat.pow_lt_pow_right (by decide) (by omega))
      have hkm : k % 2 ^ 32 = k := Nat.mod_eq_of_lt (by omega)
      rw [hkm] at h2 ⊢
      exact (Nat.pow_lt_pow_iff_right (by decide)).mp (lt_of_le_of_lt h2 hk)
  · have hk' : k % 2 ^ 32 = 2 ^ 32 - 1 := by omega
    have hm : 32 < m := by
      by_contra hcon
      have : 2 ^ m ≤ 2 ^ 32 := Nat.pow_le_pow_right (by decide) (by omega)
      omega
    have hval : (g.afterCalls k).next.1 = 31 := by
      rw [Gray.afterCalls_eq, hk']
      decide
    omega

namespace DigitalNet

/-- Row `i < m`, column `j < s` is a cell of a buffer of `s * m` entries. -/
theorem baseIndex_lt {s m i j : Nat} (hi : i < m) (hj : j < s) :
    baseIndex s i j < s * m := by
  have h2 : (i + 1) * s ≤ m * s := Nat.mul_le_mul_right s hi
  have h3 : m * s = s * m := Nat.mul_comm m s
  have h4 : (i + 1) * s = i * s + s := by ring
  have h5 : baseIndex s i j ≤ i * s + j := Nat.mod_le _ _
  omega

/-- The loop of `nextPoint` succeeds when all its reads are inside the buffers. -/
theorem xorRow_isSome (dn : DigitalNet) (j : Nat) : ∀ n, n ≤ dn.point_base.length →
    (∀ i, i < n → baseIndex dn.s j i < dn.base.length) → ∃ l, xorRow dn j n = some l := by
  intro n
  induction n with
  | zero => intro _ _; exact ⟨[], rfl⟩
  | succ n ih =>
    intro hlen hin
    obtain ⟨acc, hacc⟩ := ih (by omega) (fun i hi => hin i (by omega))
    have hlt : baseIndex dn.s j n < dn.base.length := hin n (by omega)
    have hp : dn.point_base[n]? = some dn.point_base[n] := List.getElem?_eq_getElem (by omega)
    have hb : dn.getBase j n = some dn.base[baseIndex dn.s j n] :=
      List.getElem?_eq_getElem hlt
    refine ⟨acc ++ [dn.point_base[n] ^^^ dn.base[baseIndex dn.s j n]], ?_⟩
    simp only [xorRow, hacc, hp, hb]

/-- What the loop of `nextPoint` computes: entry `i` of the result is
`point_base[i] XOR getBase (j, i)`. -/
theorem xorRow_spec (dn : DigitalNet) (j : Nat) : ∀ n l, xorRow dn j n = some l →
    l.length = n ∧ ∀ i, i < n → ∃ p b, dn.point_base[i]? = some p ∧ dn.getBase j i = some b ∧
      l[i]? = some (p ^^^ b) := by
  intro n
  induction n with
  | zero =>
    intro l h
    simp only [xorRow, Option.some.injEq] at h
    subst h
    exact ⟨rfl, fun i hi => by omega⟩
  | succ n ih =>
    intro l h
    simp only [xorRow] at h
    cases hacc : xorRow dn j n with
    | none => simp [hacc] at h
    | some acc =>
      cases hp : dn.point_base[n]? with
      | none => simp [hacc, hp] at h
      | some p =>
        cases hb : dn.getBase j n with
        | none => simp [hacc, hp, hb] at h
        | some b =>
          simp only [hacc, hp, hb, Option.some.injEq] at h
          subst h
          obtain ⟨hl, hspec⟩ := ih acc hacc
          refine ⟨by simp [hl], ?_⟩
          intro i hi
          by_cases hin : i < n
          · obtain ⟨p', b', h1, h2, h3⟩ := hspec i hin
            refine ⟨p', b', h1, h2, ?_⟩
            rw [List.getElem?_append_left (by omega)]
            exact h3
          · have hi' : i = n := by omega
            subst hi'
            refine ⟨p, b, hp, hb, ?_⟩
            rw [← hl]
            exact List.getElem?_concat_length acc (p ^^^ b)

/-- The result of `nextPoint` inside a period, once its loop has succeeded. -/
theorem nextPoint_of_xorRow (dn : DigitalNet) (l : List Nat)
    (hc : dn.count + 1 ≠ 2 ^ dn.m) (h : xorRow dn dn.gray.next.1 dn.s = some l) :
    dn.nextPoint = some { dn with
      gray := dn.gray.next.2
      point_base := l
      point := l.map scale
      count := (dn.count + 1) % 2 ^ 64 } := by
  simp only [nextPoint, if_neg hc, h]

/-- What `nextPoint` leaves alone and what it sets, inside a period. -/
theorem nextPoint_fields (dn st : DigitalNet) (hc : dn.count + 1 ≠ 2 ^ dn.m)
    (h : dn.nextPoint = some st) :
    st.s = dn.s ∧ st.m = dn.m ∧ st.base = dn.base ∧ st.shift = dn.shift ∧
    st.wafom = dn.wafom ∧ st.tvalue = dn.tvalue ∧
    st.gray = dn.gray.next.2 ∧ st.point = st.point_base.map scale ∧
    xorRow dn dn.gray.next.1 dn.s = some st.point_base ∧
    st.count = (dn.count + 1) % 2 ^ 64 := by
  simp only [nextPoint, if_neg hc] at h
  cases hx : xorRow dn dn.gray.next.1 dn.s with
  | none => simp [hx] at h
  | some pb =>
    simp only [hx, Option.some.injEq] at h
    subst h
    exact ⟨rfl, rfl, rfl, rfl, rfl, rfl, rfl, rfl, rfl, rfl⟩

/-- Invariants of the states reached from `pointInitialize` by fewer than `2^m`
calls of `nextPoint`. -/
theorem pointsAfter_fields (dn : DigitalNet) : ∀ k st, k < 2 ^ dn.m →
    dn.pointsAfter k = some st →
    st.s = dn.s ∧ st.m = dn.m ∧ st.base = dn.base ∧ st.shift = dn.shift ∧
    st.wafom = dn.wafom ∧ st.tvalue = dn.tvalue ∧
    st.gray = dn.gray.afterCalls k ∧ st.point = st.point_base.map scale ∧
    st.point_base.length = dn.s ∧ st.count = k % 2 ^ 64 := by
  intro k
  induction k with
  | zero =>
    intro st _ h
    simp only [pointsAfter, Option.some.injEq] at h
    subst h
    refine ⟨rfl, rfl, rfl, rfl, rfl, rfl, rfl, ?_, ?_, rfl⟩
    · simp [pointInitialize]
    · simp [pointInitialize]
  | succ k ih =>
    intro st hk h
    simp only [pointsAfter] at h
    cases hprev : dn.pointsAfter k with
    | none => simp [hprev] at h
    | some prev =>
      rw [hprev] at h
      simp only [Option.some_bind] at h
      obtain ⟨a1, a2, a3, a4, a5, a6, a7, _, _, a10⟩ := ih prev (by omega) hprev
      have hc : prev.count + 1 ≠ 2 ^ prev.m := by
        rw [a10, a2]
        have := Nat.mod_le k (2 ^ 64)
        omega
      obtain ⟨b1, b2, b3, b4, b5, b6, b7, b8, b9, b10⟩ := nextPoint_fields prev st hc h
      refine ⟨by omega, by omega, by rw [b3, a3], by omega, by rw [b5, a5], by rw [b6, a6],
        ?_, b8, ?_, ?_⟩
      · rw [b7, a7]; rfl
      · rw [(xorRow_spec prev _ _ _ b9).1, a1]
      · rw [b10, a10]; omega

end DigitalNet

namespace DigitalNet

/-- C3 (as stated, refuted): with `s = 2`, `m = 1` and the buffer `5 6` no point has
been produced after `pointInitialize`, which is fewer than `2^1 - 1`.  The next
call has flip index 0 and turns the accumulators `0 0` into `5 6`: dimension 1
changes by 6, which is `getBase (0, 1)`, whereas `getBase (1, 0)` is cell 2 of a
two-entry buffer and has no value. -/
theorem nextPoint_not_getBase_dim_flip :
    (0 < 2 ^ 1 - 1) ∧
    (mkNet 2 1 [5, 6]).pointInitialize.gray.next.1 = 0 ∧
    ((mkNet 2 1 [5, 6]).pointsAfter 0).map (fun st => st.point_base) = some [0, 0] ∧
    ((mkNet 2 1 [5, 6]).pointsAfter 1).map (fun st => st.point_base) = some [5, 6] ∧
    (mkNet 2 1 [5, 6]).pointInitialize.getBase 0 1 = some 6 ∧
    (mkNet 2 1 [5, 6]).pointInitialize.getBase 1 0 = none := by
  decide

/-- C3 (amended): in a state reached by `k` calls of `nextPoint` after
`pointInitialize` on a net with a buffer of `s * m` entries, with `k < 2^m - 1`,
let `j` be the flip index of the Gray counter.  Then `nextPoint` succeeds,
`j < m`, and for every dimension `i < s`
`point_base_new[i] XOR point_base_old[i] = getBase (j, i)`: the entry in row `j`
and column `i`. -/
theorem nextPoint_xor_row (dn st : DigitalNet) (k : Nat)
    (hlen : dn.base.length = dn.s * dn.m)
    (hreach : dn.pointsAfter k = some st) (hk : k + 1 < 2 ^ dn.m) :
    ∃ st', st.nextPoint = some st' ∧ st.gray.next.1 < st.m ∧
      ∀ i, i < st.s → ∃ old new b, st.point_base[i]? = some old ∧
        st'.point_base[i]? = some new ∧ st.getBase st.gray.next.1 i = some b ∧
        new ^^^ old = b := by
  obtain ⟨hs, hm, hbase, _, _, _, hg, _, hplen, hcount⟩ :=
    pointsAfter_fields dn k st (by omega) hreach
  have hj : st.gray.next.1 < st.m := by
    rw [hg, hm]
    exact flipIndex_lt dn.gray k dn.m hk
  have hc : st.count + 1 ≠ 2 ^ st.m := by
    rw [hcount, hm]
    have := Nat.mod_le k (2 ^ 64)
    omega
  have hin : ∀ i, i < st.s → baseIndex st.s st.gray.next.1 i < st.base.length := by
    intro i hi
    rw [hbase, hlen, ← hs, ← hm]
    exact baseIndex_lt hj hi
  obtain ⟨l, hl⟩ := xorRow_isSome st st.gray.next.1 st.s (by omega) hin
  obtain ⟨_, hspec⟩ := xorRow_spec st _ _ l hl
  refine ⟨_, nextPoint_of_xorRow st l hc hl, hj, ?_⟩
  intro i hi
  obtain ⟨p, b, h1, h2, h3⟩ := hspec i hi
  refine ⟨p, p ^^^ b, b, h1, h3, h2, ?_⟩
  rw [Nat.xor_comm p b]
  exact Nat.xor_cancel_right p b

/-- Witness: the second call on a 2-by-2 net. -/
theorem nextPoint_xor_row_witness :
    (mkNet 2 2 [1, 2, 4, 8]).base.length =
      (mkNet 2 2 [1, 2, 4, 8]).s * (mkNet 2 2 [1, 2, 4, 8]).m ∧
    (mkNet 2 2 [1, 2, 4, 8]).pointsAfter 1 = some stateAfterOne ∧ 1 + 1 < 2 ^ 2 ∧
    ∃ st', stateAfterOne.nextPoint = some st' ∧ stateAfterOne.gray.next.1 < stateAfterOne.m ∧
      ∀ i, i < stateAfterOne.s → ∃ old new b, stateAfterOne.point_base[i]? = some old ∧
        st'.point_base[i]? = some new ∧
        stateAfterOne.getBase stateAfterOne.gray.next.1 i = some b ∧ new ^^^ old = b :=
  ⟨by decide, rfl, by decide,
    nextPoint_xor_row (mkNet 2 2 [1, 2, 4, 8]) stateAfterOne 1 (by decide) rfl (by decide)⟩

end DigitalNet

namespace DigitalNet

end DigitalNet

namespace DigitalNet

end DigitalNet

end MCQMCIntegration
